import Mathlib

/-!
Verification development for the farm imagery indexing and rendering pipeline
(backend of the farm annotation tool).  The Python source is shallowly
embedded: pure functions become Lean functions on `List Char` / `String`,
machine floats of the raster path are modelled over `ℚ`, and filesystem or
network effects are passed in explicitly as oracles or `Except` results.
-/

namespace FarmTool

/-! ## Character helpers (ASCII model of `str.lower`, `[a-z]`, `\d`) -/

/-- ASCII lower-casing of one character, modelling `str.lower()` on the
ASCII range (the only range the filename conventions use). -/
def lowerChar (c : Char) : Char :=
  if 'A' ≤ c ∧ c ≤ 'Z' then Char.ofNat (c.toNat + 32) else c

/-- Model of the regex class `\d` on ASCII input. -/
def isDigitC (c : Char) : Bool := decide ('0' ≤ c) && decide (c ≤ '9')

/-- Model of the regex class `[a-z]`. -/
def isLowerC (c : Char) : Bool := decide ('a' ≤ c) && decide (c ≤ 'z')

/-- `int()` applied to a string of decimal digits. -/
def digitsToNat (l : List Char) : Nat :=
  l.foldl (fun n c => n * 10 + (c.toNat - '0'.toNat)) 0

/-- `os.path.basename` for POSIX paths: everything after the last `/`. -/
def basename (l : List Char) : List Char :=
  ((l.reverse.takeWhile (fun c => !(c == '/'))).reverse)

/-! ## Date heuristic parser (`image_utils.parse_date_from_filename`) -/

/-- The month-name table of `parse_date_from_filename`. -/
def monthMap (s : List Char) : Option Nat :=
  let t := String.mk s
  if t = "jan" ∨ t = "january" then some 1
  else if t = "feb" ∨ t = "february" then some 2
  else if t = "mar" ∨ t = "march" then some 3
  else if t = "apr" ∨ t = "april" then some 4
  else if t = "may" then some 5
  else if t = "jun" ∨ t = "june" then some 6
  else if t = "jul" ∨ t = "july" then some 7
  else if t = "aug" ∨ t = "august" then some 8
  else if t = "sep" ∨ t = "sept" ∨ t = "september" then some 9
  else if t = "oct" ∨ t = "october" then some 10
  else if t = "nov" ∨ t = "november" then some 11
  else if t = "dec" ∨ t = "december" then some 12
  else none

/-- Consume one expected character at the head of the input. -/
def expectChar (c : Char) : List Char → Option (List Char)
  | x :: r => if x = c then some r else none
  | [] => none

/-- Anchored match of the canonical pattern `^(\d{4})_(\d{1,2})_(\d{1,2})\.png$`
against an (already lower-cased) filename.  Greedy digit groups followed by a
mandatory non-digit mean each digit group must be a maximal digit run of the
stated length, which is what the `List.span` decomposition checks. -/
def matchEnhanced (s : List Char) : Option (Nat × Nat × Nat) :=
  let sp1 := s.span isDigitC
  if sp1.1.length = 4 then
    match expectChar '_' sp1.2 with
    | none => none
    | some r2 =>
      let sp2 := r2.span isDigitC
      if sp2.1.length = 1 ∨ sp2.1.length = 2 then
        match expectChar '_' sp2.2 with
        | none => none
        | some r4 =>
          let sp3 := r4.span isDigitC
          if (sp3.1.length = 1 ∨ sp3.1.length = 2) ∧ sp3.2 = ['.', 'p', 'n', 'g'] then
            some (digitsToNat sp1.1, digitsToNat sp2.1, digitsToNat sp3.1)
          else none
      else none
  else none

/-- One attempt of `([a-z]+)_(\d{4})` anchored at the head of `s`;
returns `(month token, year digits)`. -/
def tryP1 (s : List Char) : Option (List Char × List Char) :=
  let (ls, r1) := s.span isLowerC
  if ls.isEmpty then none
  else
    match r1 with
    | '_' :: r2 =>
      let ds := r2.take 4
      if ds.length = 4 ∧ ds.all isDigitC then some (ls, ds) else none
    | _ => none

/-- One attempt of `(\d+)([a-z]+),(\d{4})` anchored at the head of `s`. -/
def tryP2 (s : List Char) : Option (List Char × List Char × List Char) :=
  let (ds, r1) := s.span isDigitC
  if ds.isEmpty then none
  else
    let (ls, r2) := r1.span isLowerC
    if ls.isEmpty then none
    else
      match r2 with
      | ',' :: r3 =>
        let ys := r3.take 4
        if ys.length = 4 ∧ ys.all isDigitC then some (ds, ls, ys) else none
      | _ => none

/-- One attempt of `(\d+)([a-z]+)(\d{4})` anchored at the head of `s`. -/
def tryP3 (s : List Char) : Option (List Char × List Char × List Char) :=
  let (ds, r1) := s.span isDigitC
  if ds.isEmpty then none
  else
    let (ls, r2) := r1.span isLowerC
    if ls.isEmpty then none
    else
      let ys := r2.take 4
      if ys.length = 4 ∧ ys.all isDigitC then some (ds, ls, ys) else none

/-- One attempt of `([a-z]+)(\d+)_(\d{4})` anchored at the head of `s`. -/
def tryP4 (s : List Char) : Option (List Char × List Char × List Char) :=
  let (ls, r1) := s.span isLowerC
  if ls.isEmpty then none
  else
    let (ds, r2) := r1.span isDigitC
    if ds.isEmpty then none
    else
      match r2 with
      | '_' :: r3 =>
        let ys := r3.take 4
        if ys.length = 4 ∧ ys.all isDigitC then some (ls, ds, ys) else none
      | _ => none

/-- `re.search`: try the anchored attempt at every start position, leftmost
attempt that succeeds wins. -/
def reSearch {α : Type} (attempt : List Char → Option α) : List Char → Option α
  | [] => attempt []
  | c :: rest =>
    match attempt (c :: rest) with
    | some r => some r
    | none => reSearch attempt rest

/-- Legacy pattern cascade of `parse_date_from_filename`: each pattern is
searched in order; a match whose month token is not in the table falls
through to the next pattern. -/
def legacyParse (s : List Char) : Option (Nat × Nat × Nat) :=
  let step1 :=
    match reSearch tryP1 s with
    | some (ms, ys) => (monthMap ms).map (fun m => (digitsToNat ys, m, 1))
    | none => none
  match step1 with
  | some r => some r
  | none =>
    let step2 :=
      match reSearch tryP2 s with
      | some (ds, ms, ys) => (monthMap ms).map (fun m => (digitsToNat ys, m, digitsToNat ds))
      | none => none
    match step2 with
    | some r => some r
    | none =>
      let step3 :=
        match reSearch tryP3 s with
        | some (ds, ms, ys) => (monthMap ms).map (fun m => (digitsToNat ys, m, digitsToNat ds))
        | none => none
      match step3 with
      | some r => some r
      | none =>
        match reSearch tryP4 s with
        | some (ms, ds, ys) => (monthMap ms).map (fun m => (digitsToNat ys, m, digitsToNat ds))
        | none => none

/-- Anchored attempt of the year fallback `20\d{2}`. -/
def tryYear (s : List Char) : Option (List Char) :=
  match s with
  | '2' :: '0' :: c :: d :: _ =>
    if isDigitC c ∧ isDigitC d then some ['2', '0', c, d] else none
  | _ => none

/-- `re.search(r'20\d{2}', filename)` on the original (non-lowered) filename. -/
def findYear (s : List Char) : Option Nat :=
  (reSearch tryYear s).map digitsToNat

/-- `image_utils.parse_date_from_filename`.  The last-resort branch reads the
file's modification time; that filesystem effect is passed in as the oracle
`fs`, mapping a path to the `(year, month, day)` of its mtime when the path
exists (`none` when it does not). -/
def parse_date_from_filename (fs : String → Option (Nat × Nat × Nat)) (p : String) :
    Nat × Nat × Nat :=
  let filename := basename p.toList
  let fl := filename.map lowerChar
  match matchEnhanced fl with
  | some r => r
  | none =>
    match legacyParse fl with
    | some r => r
    | none =>
      match findYear filename with
      | some y => (y, 0, 0)
      | none =>
        match fs p with
        | some d => d
        | none => (2024, 0, 0)

/-- Filesystem oracle for paths that do not exist on local storage. -/
def fsNone : String → Option (Nat × Nat × Nat) := fun _ => none

/-! ## Symbolic facts about the canonical pattern -/

lemma lowerChar_digit {c : Char} (h : isDigitC c = true) : lowerChar c = c := by
  unfold isDigitC at h
  simp only [Bool.and_eq_true, decide_eq_true_eq] at h
  unfold lowerChar
  rw [if_neg]
  rintro ⟨h1, _⟩
  exact absurd (le_trans h1 h.2) (by decide)

lemma isDigitC_ne_slash {c : Char} (h : isDigitC c = true) : c ≠ '/' := by
  intro hc; subst hc; exact absurd h (by decide)

lemma map_lowerChar_digits : ∀ {l : List Char}, (∀ c ∈ l, isDigitC c = true) →
    l.map lowerChar = l
  | [], _ => rfl
  | c :: cs, h => by
    rw [List.map_cons, lowerChar_digit (h c (by simp)),
      map_lowerChar_digits (fun x hx => h x (by simp [hx]))]

lemma basename_no_slash {l : List Char} (h : ∀ c ∈ l, c ≠ '/') : basename l = l := by
  unfold basename
  rw [List.takeWhile_eq_self_iff.mpr, List.reverse_reverse]
  intro x hx
  simpa using h x (List.mem_reverse.mp hx)

lemma takeWhile_all_append (p : Char → Bool) : ∀ (ds r : List Char),
    (∀ c ∈ ds, p c = true) → (ds ++ r).takeWhile p = ds ++ r.takeWhile p
  | [], _, _ => by simp
  | c :: cs, r, h => by
    rw [List.cons_append, List.takeWhile_cons, if_pos (h c (by simp)),
      takeWhile_all_append p cs r (fun x hx => h x (by simp [hx])), List.cons_append]

lemma dropWhile_all_append (p : Char → Bool) : ∀ (ds r : List Char),
    (∀ c ∈ ds, p c = true) → (ds ++ r).dropWhile p = r.dropWhile p
  | [], _, _ => by simp
  | c :: cs, r, h => by
    rw [List.cons_append, List.dropWhile_cons, if_pos (h c (by simp)),
      dropWhile_all_append p cs r (fun x hx => h x (by simp [hx]))]

/-- A maximal run of `p`-characters followed by a non-`p` character is exactly
what `List.span` splits off. -/
lemma span_all_stop (p : Char → Bool) (ds r : List Char)
    (h : ∀ c ∈ ds, p c = true) (hr : ∀ c r2, r = c :: r2 → p c = false) :
    (ds ++ r).span p = (ds, r) := by
  rw [List.span_eq_take_drop, takeWhile_all_append p ds r h, dropWhile_all_append p ds r h]
  cases r with
  | nil => simp
  | cons c r2 =>
    rw [List.takeWhile_cons, if_neg (by simp [hr c r2 rfl]),
      List.dropWhile_cons, if_neg (by simp [hr c r2 rfl])]
    simp

lemma matchEnhanced_canonical (ys ms ds : List Char)
    (hys : ys.length = 4) (hms : ms.length = 1 ∨ ms.length = 2)
    (hds : ds.length = 1 ∨ ds.length = 2)
    (hysd : ∀ c ∈ ys, isDigitC c = true) (hmsd : ∀ c ∈ ms, isDigitC c = true)
    (hdsd : ∀ c ∈ ds, isDigitC c = true) :
    matchEnhanced (ys ++ '_' :: (ms ++ '_' :: (ds ++ ['.', 'p', 'n', 'g']))) =
      some (digitsToNat ys, digitsToNat ms, digitsToNat ds) := by
  have stop_underscore : ∀ (t : List Char) (c : Char) (r2 : List Char),
      ('_' :: t) = c :: r2 → isDigitC c = false := by
    intro t c r2 hh; injection hh with h1 _; subst h1; decide
  have stop_dot : ∀ (c : Char) (r2 : List Char),
      (['.', 'p', 'n', 'g'] : List Char) = c :: r2 → isDigitC c = false := by
    intro c r2 hh; injection hh with h1 _; subst h1; decide
  unfold matchEnhanced
  rw [span_all_stop isDigitC ys _ hysd (stop_underscore _)]
  simp only [hys, eq_self_iff_true, if_true, expectChar]
  rw [span_all_stop isDigitC ms _ hmsd (stop_underscore _)]
  rw [if_pos hms]
  simp only [expectChar, eq_self_iff_true, if_true]
  rw [span_all_stop isDigitC ds _ hdsd stop_dot]
  rw [if_pos ⟨hds, rfl⟩]

lemma ne_slash_of_lower {c d : Char} (h : lowerChar c = d) (hd : d ≠ '/') : c ≠ '/' := by
  intro hc; subst hc
  exact hd (by rw [← h]; decide)

/-- **C2.** Every filename of the canonical form `YYYY_M_D.png` (4 digit year,
1–2 digit month, 1–2 digit day, case-insensitive `.png` extension, nothing
before or after) parses to exactly the encoded `(year, month, day)`. -/
theorem canonical_filename_parses_exact
    (fs : String → Option (Nat × Nat × Nat))
    (ys ms ds : List Char) (e1 e2 e3 : Char)
    (hys : ys.length = 4) (hms : ms.length = 1 ∨ ms.length = 2)
    (hds : ds.length = 1 ∨ ds.length = 2)
    (hysd : ∀ c ∈ ys, isDigitC c = true) (hmsd : ∀ c ∈ ms, isDigitC c = true)
    (hdsd : ∀ c ∈ ds, isDigitC c = true)
    (he1 : lowerChar e1 = 'p') (he2 : lowerChar e2 = 'n') (he3 : lowerChar e3 = 'g') :
    parse_date_from_filename fs
      (String.mk (ys ++ '_' :: (ms ++ '_' :: (ds ++ ['.', e1, e2, e3])))) =
      (digitsToNat ys, digitsToNat ms, digitsToNat ds) := by
  have hu : lowerChar '_' = '_' := by decide
  have hdot : lowerChar '.' = '.' := by decide
  have hnoslash : ∀ c ∈ ys ++ '_' :: (ms ++ '_' :: (ds ++ ['.', e1, e2, e3])), c ≠ '/' := by
    intro c hc
    simp only [List.mem_append, List.mem_cons, List.mem_singleton] at hc
    rcases hc with h | h | h | h | h | h | h | h | h | h
    · exact isDigitC_ne_slash (hysd c h)
    · subst h; decide
    · exact isDigitC_ne_slash (hmsd c h)
    · subst h; decide
    · exact isDigitC_ne_slash (hdsd c h)
    · subst h; decide
    · subst h; exact ne_slash_of_lower he1 (by decide)
    · subst h; exact ne_slash_of_lower he2 (by decide)
    · subst h; exact ne_slash_of_lower he3 (by decide)
    · exact absurd h (by simp)
  have hmap : (ys ++ '_' :: (ms ++ '_' :: (ds ++ ['.', e1, e2, e3]))).map lowerChar =
      ys ++ '_' :: (ms ++ '_' :: (ds ++ ['.', 'p', 'n', 'g'])) := by
    simp only [List.map_append, List.map_cons, List.map_nil]
    rw [map_lowerChar_digits hysd, map_lowerChar_digits hmsd, map_lowerChar_digits hdsd]
    simp only [hu, hdot, he1, he2, he3]
  unfold parse_date_from_filename
  rw [show (String.mk (ys ++ '_' :: (ms ++ '_' :: (ds ++ ['.', e1, e2, e3])))).toList =
    ys ++ '_' :: (ms ++ '_' :: (ds ++ ['.', e1, e2, e3])) from rfl]
  rw [basename_no_slash hnoslash]
  dsimp only
  rw [hmap, matchEnhanced_canonical ys ms ds hys hms hds hysd hmsd hdsd]

/-- Witness for C2 at the concrete filename `2024_6_10.PNG`. -/
theorem canonical_filename_parses_exact_witness :
    parse_date_from_filename fsNone "2024_6_10.PNG" = (2024, 6, 10) := by
  have h := canonical_filename_parses_exact fsNone ['2', '0', '2', '4'] ['6'] ['1', '0']
    'P' 'N' 'G' (by decide) (by decide) (by decide) (by decide) (by decide) (by decide)
    (by decide) (by decide) (by decide)
  rw [show String.mk (['2', '0', '2', '4'] ++ '_' :: (['6'] ++ '_' ::
    (['1', '0'] ++ ['.', 'P', 'N', 'G']))) = "2024_6_10.PNG" from rfl] at h
  rw [h]
  decide

/-! ## Farm image catalog builder (`app.get_farm_data`, lines 671–764) -/

/-- Lexicographic (strict) comparison of date tuples, as Python compares
`(year, month, day)` 3-tuples. -/
def dateLt (a b : Nat × Nat × Nat) : Bool :=
  decide (a.1 < b.1 ∨ (a.1 = b.1 ∧ (a.2.1 < b.2.1 ∨ (a.2.1 = b.2.1 ∧ a.2.2 < b.2.2))))

/-- Stable insertion: `x` goes after every element not strictly greater than
it, matching Python's stable `list.sort`. -/
def insertSorted {α : Type} (lt : α → α → Bool) (x : α) : List α → List α
  | [] => [x]
  | y :: ys => if lt x y then x :: y :: ys else y :: insertSorted lt x ys

/-- Stable insertion sort, modelling Python `list.sort(key=...)`. -/
def sortBy {α : Type} (lt : α → α → Bool) : List α → List α
  | [] => []
  | x :: xs => insertSorted lt x (sortBy lt xs)

/-- `month_names` from `app.get_farm_data`. -/
def month_names : List String :=
  ["", "Jan", "Feb", "Mar", "Apr", "May", "Jun", "Jul", "Aug", "Sep", "Oct", "Nov", "Dec"]

/-- The `date_display` computation of `get_farm_data`; `month_names[month]`
raises `IndexError` in Python when `month > 12`, modelled by `none`. -/
def date_display (d : Nat × Nat × Nat) : Option String :=
  if 0 < d.2.1 then
    (month_names.get? d.2.1).map (fun mn =>
      if 0 < d.2.2 then mn ++ " " ++ toString d.2.2 ++ ", " ++ toString d.1
      else mn ++ " " ++ toString d.1)
  else some (if 1900 < d.1 then toString d.1 else "Unknown")

/-- One `thumb_data` record of `get_farm_data`. -/
structure Thumb where
  index : Nat
  filename : String
  display : String
  sort_date : Nat × Nat × Nat
  original_path : String
deriving DecidableEq

/-- The catalog returned by `get_farm_data` (the storage- and date-derived
fields; the annotation-lookup fields are external collaborators). -/
structure Catalog where
  image_count : Nat
  thumbnails_2024 : List Thumb
  thumbnails_2025 : List Thumb
deriving DecidableEq

/-- The `enumerate(image_data)` loop body building `thumb_data` records;
`none` models the `IndexError` crash on an out-of-range month. -/
def mkThumbs : Nat → List (String × (Nat × Nat × Nat)) → Option (List Thumb)
  | _, [] => some []
  | i, (p, d) :: rest =>
    match date_display d with
    | none => none
    | some disp =>
      match mkThumbs (i + 1) rest with
      | none => none
      | some ts => some (⟨i, p, disp, d, p⟩ :: ts)

/-- Per-year-bucket reindexing from 0. -/
def reindex : Nat → List Thumb → List Thumb
  | _, [] => []
  | i, t :: ts => ⟨i, t.filename, t.display, t.sort_date, t.original_path⟩ :: reindex (i + 1) ts

/-- Ordering of thumbnails by their `sort_date` key. -/
def thumbLt (a b : Thumb) : Bool := dateLt a.sort_date b.sort_date

/-- The local `image_data` of `get_farm_data`: each listed path paired with
the date parsed from `"/{farm_id}/{img_path}"`. -/
def imageData (fs : String → Option (Nat × Nat × Nat)) (farm_id : String)
    (image_paths : List String) : List (String × (Nat × Nat × Nat)) :=
  image_paths.map (fun p => (p, parse_date_from_filename fs ("/" ++ farm_id ++ "/" ++ p)))

/-- `image_data` after `image_data.sort(key=lambda x: x['date'])`. -/
def sortedData (fs : String → Option (Nat × Nat × Nat)) (farm_id : String)
    (image_paths : List String) : List (String × (Nat × Nat × Nat)) :=
  sortBy (fun a b => dateLt a.2 b.2) (imageData fs farm_id image_paths)

/-- The pure core of `app.get_farm_data`: date parsing over the listed image
paths, date sort, year-2024/2025 bucketing and per-bucket reindexing.  The
storage listing is the input `image_paths`; `none` models the Python-level
`IndexError` raised while formatting an out-of-range month. -/
def get_farm_data (fs : String → Option (Nat × Nat × Nat)) (farm_id : String)
    (image_paths : List String) : Option Catalog :=
  match mkThumbs 0 (sortedData fs farm_id image_paths) with
  | none => none
  | some thumbs =>
    some ⟨(imageData fs farm_id image_paths).length,
      reindex 0 (sortBy thumbLt (thumbs.filter (fun t => t.sort_date.1 == 2024))),
      reindex 0 (sortBy thumbLt (thumbs.filter (fun t => t.sort_date.1 == 2025)))⟩

/-! ## Structural lemmas about the catalog builder -/

lemma insertSorted_perm {α : Type} (lt : α → α → Bool) (x : α) :
    ∀ l : List α, (insertSorted lt x l).Perm (x :: l)
  | [] => List.Perm.refl _
  | y :: ys => by
    unfold insertSorted
    by_cases h : lt x y = true
    · rw [if_pos h]
    · rw [if_neg h]
      exact (List.Perm.cons y (insertSorted_perm lt x ys)).trans (List.Perm.swap x y ys)

lemma sortBy_perm {α : Type} (lt : α → α → Bool) :
    ∀ l : List α, (sortBy lt l).Perm l
  | [] => List.Perm.refl _
  | x :: xs =>
    (insertSorted_perm lt x (sortBy lt xs)).trans (List.Perm.cons x (sortBy_perm lt xs))

lemma mkThumbs_eq_some : ∀ {i : Nat} {l : List (String × (Nat × Nat × Nat))} {ts : List Thumb},
    mkThumbs i l = some ts → ts.map (fun t => (t.filename, t.sort_date)) = l := by
  intro i l
  induction l generalizing i with
  | nil => intro ts h; simp only [mkThumbs, Option.some.injEq] at h; subst h; rfl
  | cons pd rest ih =>
    intro ts h
    obtain ⟨p, d⟩ := pd
    simp only [mkThumbs] at h
    cases hdd : date_display d with
    | none => rw [hdd] at h; exact absurd h (by simp)
    | some disp =>
      rw [hdd] at h
      cases hrest : mkThumbs (i + 1) rest with
      | none => rw [hrest] at h; exact absurd h (by simp)
      | some ts2 =>
        rw [hrest] at h
        simp only [Option.some.injEq] at h
        subst h
        simp only [List.map_cons, ih hrest]

lemma reindex_length : ∀ (i : Nat) (l : List Thumb), (reindex i l).length = l.length
  | _, [] => rfl
  | i, _ :: ts => by simp [reindex, reindex_length (i + 1) ts]

lemma mem_reindex : ∀ {i : Nat} {l : List Thumb} {t : Thumb},
    t ∈ reindex i l → ∃ t2 ∈ l, t.sort_date = t2.sort_date := by
  intro i l
  induction l generalizing i with
  | nil => intro t h; exact absurd h (by simp [reindex])
  | cons x xs ih =>
    intro t h
    simp only [reindex, List.mem_cons] at h
    rcases h with h | h
    · exact ⟨x, by simp, by rw [h]⟩
    · obtain ⟨t2, ht2, he⟩ := ih h
      exact ⟨t2, by simp [ht2], he⟩

lemma countP_or_disjoint {α : Type} (p q : α → Bool)
    (h : ∀ a, p a = true → q a = false) :
    ∀ l : List α, l.countP (fun a => p a || q a) = l.countP p + l.countP q := by
  intro l
  induction l with
  | nil => simp [List.countP_nil]
  | cons a l ih =>
    rw [List.countP_cons, List.countP_cons, List.countP_cons, ih]
    cases hp : p a with
    | true =>
      have hq := h a hp
      simp [hp, hq]
      omega
    | false =>
      cases hq : q a with
      | true =>
        simp [hp, hq]
        omega
      | false => simp [hp, hq]

/-- The parsed capture year of one listed image, as the catalog builder
computes it (`parse_date_from_filename("/{farm_id}/{img_path}")`). -/
def catalogYear (fs : String → Option (Nat × Nat × Nat)) (farm_id p : String) : Nat :=
  (parse_date_from_filename fs ("/" ++ farm_id ++ "/" ++ p)).1

lemma bucket_facts (fs : String → Option (Nat × Nat × Nat)) (farm_id : String)
    (images : List String) (thumbs : List Thumb) (y : Nat)
    (hmk : mkThumbs 0 (sortedData fs farm_id images) = some thumbs) :
    (reindex 0 (sortBy thumbLt (thumbs.filter (fun t => t.sort_date.1 == y)))).length =
      images.countP (fun p => catalogYear fs farm_id p == y) ∧
    ∀ t ∈ reindex 0 (sortBy thumbLt (thumbs.filter (fun t => t.sort_date.1 == y))),
      t.sort_date.1 = y := by
  have hmap := mkThumbs_eq_some hmk
  constructor
  · rw [reindex_length, (sortBy_perm thumbLt _).length_eq,
      ← List.countP_eq_length_filter]
    have h1 : (sortedData fs farm_id images).countP (fun pd => pd.2.1 == y) =
        thumbs.countP (fun t => t.sort_date.1 == y) := by
      rw [← hmap, List.countP_map]
      rfl
    have h2 : (sortedData fs farm_id images).countP (fun pd => pd.2.1 == y) =
        (imageData fs farm_id images).countP (fun pd => pd.2.1 == y) :=
      (sortBy_perm _ _).countP_eq _
    have h3 : (imageData fs farm_id images).countP (fun pd => pd.2.1 == y) =
        images.countP (fun p => catalogYear fs farm_id p == y) := by
      unfold imageData
      rw [List.countP_map]
      rfl
    rw [← h1, h2, h3]
  · intro t ht
    obtain ⟨t2, ht2, he⟩ := mem_reindex ht
    have ht2m := (sortBy_perm thumbLt _).mem_iff.mp ht2
    have hy := (List.mem_filter.mp ht2m).2
    have hy2 : t2.sort_date.1 = y := by simpa using hy
    rw [he]
    exact hy2

/-- **C10.** In any successfully built catalog, `image_count` counts every
listed image, the 2024/2025 buckets only hold descriptors whose parsed year
is exactly 2024 resp. 2025, together they hold exactly the images whose
parsed year lies in `{2024, 2025}` (so images with any other parsed year
appear in neither bucket), and the bucket sizes can sum to strictly less
than `image_count`. -/
theorem catalog_counts_and_buckets (fs : String → Option (Nat × Nat × Nat))
    (farm_id : String) (images : List String) (c : Catalog)
    (h : get_farm_data fs farm_id images = some c) :
    c.image_count = images.length ∧
    (∀ t ∈ c.thumbnails_2024, t.sort_date.1 = 2024) ∧
    (∀ t ∈ c.thumbnails_2025, t.sort_date.1 = 2025) ∧
    c.thumbnails_2024.length + c.thumbnails_2025.length =
      images.countP (fun p => catalogYear fs farm_id p == 2024 ||
        catalogYear fs farm_id p == 2025) ∧
    (∃ c2, get_farm_data fsNone "f" ["1999_1_1.png"] = some c2 ∧
      c2.thumbnails_2024.length + c2.thumbnails_2025.length < c2.image_count) := by
  unfold get_farm_data at h
  cases hmk : mkThumbs 0 (sortedData fs farm_id images) with
  | none => rw [hmk] at h; exact absurd h (by simp)
  | some thumbs =>
    rw [hmk] at h
    simp only [Option.some.injEq] at h
    subst h
    obtain ⟨hl24, hm24⟩ := bucket_facts fs farm_id images thumbs 2024 hmk
    obtain ⟨hl25, hm25⟩ := bucket_facts fs farm_id images thumbs 2025 hmk
    refine ⟨?_, hm24, hm25, ?_, ?_⟩
    · show (imageData fs farm_id images).length = images.length
      unfold imageData
      rw [List.length_map]
    · show (reindex 0 _).length + (reindex 0 _).length = _
      rw [hl24, hl25]
      refine (countP_or_disjoint _ _ ?_ images).symm
      intro a ha
      have ha2 : catalogYear fs farm_id a = 2024 := by simpa using ha
      simp [ha2]
    · exact ⟨⟨1, [], []⟩, by decide, by decide⟩

/-- **C1 witness for the catalog as built by the code.** The end-to-end
scenario with storage listing `["2024/Mar_2024_05.png", "2025/2025_6_10.png"]`
for farm `farm_X` yields `imageCount = 2`, a 2024 bucket with exactly one
descriptor dated `(2024, 3, 1)` (the `<month>_<year>` legacy rule fires
before any day digits are considered) and a 2025 bucket with exactly one
descriptor dated `(2025, 6, 10)`. -/
theorem scenario_catalog_exact :
    (get_farm_data fsNone "farm_X" ["2024/Mar_2024_05.png", "2025/2025_6_10.png"]).map
      (fun c => (c.image_count, c.thumbnails_2024.map (fun t => t.sort_date),
        c.thumbnails_2025.map (fun t => t.sort_date)))
      = some (2, [(2024, 3, 1)], [(2025, 6, 10)]) := by
  decide

/-- **C1 counterexample.** In the same scenario the 2024 bucket does NOT
contain a descriptor dated `(2024, 3, 5)`: `Mar_2024_05.png` is captured by
the `<month>_<year>` pattern, which fixes the day to 1. -/
theorem scenario_2024_bucket_not_day5 :
    ¬ ((get_farm_data fsNone "farm_X" ["2024/Mar_2024_05.png", "2025/2025_6_10.png"]).map
      (fun c => c.thumbnails_2024.map (fun t => t.sort_date)) = some [(2024, 3, 5)]) := by
  decide

/-- **C3.** The canonical pattern copies month and day digits into the result
without range validation: `2024_13_40.png` parses to month 13 > 12 and day
40 > 31, and the catalog builder then fails formatting `month_names[13]`
(an `IndexError` in the Python source, `none` in this model). -/
theorem parse_month_day_out_of_claimed_bounds :
    parse_date_from_filename fsNone "2024_13_40.png" = (2024, 13, 40) ∧
    12 < (parse_date_from_filename fsNone "2024_13_40.png").2.1 ∧
    31 < (parse_date_from_filename fsNone "2024_13_40.png").2.2 ∧
    get_farm_data fsNone "farm_A" ["2024_13_40.png"] = none := by
  exact ⟨by decide, by decide, by decide, by decide⟩

/-- Witness for C10 at a concrete farm whose single image has parsed year
1999: `imageCount = 1` while both buckets are empty. -/
theorem catalog_counts_and_buckets_witness :
    (Catalog.mk 1 [] []).image_count = (["1999_1_1.png"] : List String).length ∧
    (Catalog.mk 1 [] []).thumbnails_2024.length +
        (Catalog.mk 1 [] []).thumbnails_2025.length =
      (["1999_1_1.png"] : List String).countP
        (fun p => catalogYear fsNone "f" p == 2024 || catalogYear fsNone "f" p == 2025) := by
  have h := catalog_counts_and_buckets fsNone "f" ["1999_1_1.png"] ⟨1, [], []⟩ (by decide)
  exact ⟨h.1, h.2.2.2.1⟩

/-- **C5.** The date parser is total by construction (it is a Lean function
into date triples); moreover when the canonical pattern does not match, no
legacy pattern yields a recognized month name, no 4-digit token starting
`20` occurs in the filename, and the path does not exist on accessible
storage (`fs p = none`), it returns the constant `(2024, 0, 0)`. -/
theorem parse_fallback_constant (fs : String → Option (Nat × Nat × Nat)) (p : String)
    (h1 : matchEnhanced ((basename p.toList).map lowerChar) = none)
    (h2 : legacyParse ((basename p.toList).map lowerChar) = none)
    (h3 : findYear (basename p.toList) = none)
    (h4 : fs p = none) :
    parse_date_from_filename fs p = (2024, 0, 0) := by
  unfold parse_date_from_filename
  dsimp only
  rw [h1, h2, h3, h4]

/-- Witness for C5 at the concrete input `hello.txt` (no date information at
all) with a filesystem on which the path does not exist. -/
theorem parse_fallback_constant_witness :
    parse_date_from_filename fsNone "hello.txt" = (2024, 0, 0) :=
  parse_fallback_constant fsNone "hello.txt" (by decide) (by decide) (by decide) rfl

/-! ## Storage backends (`storage.py`) -/

/-- Lexicographic comparison of character lists by code point, the order
Python uses to compare `str` values (a proper prefix sorts first). -/
def charsLe : List Char → List Char → Bool
  | [], _ => true
  | _ :: _, [] => false
  | a :: as, b :: bs => if a < b then true else if b < a then false else charsLe as bs

/-- Python's `<=` on strings. -/
def strLeB (s t : String) : Bool := charsLe s.toList t.toList

lemma charsLe_total : ∀ as bs : List Char, charsLe as bs = true ∨ charsLe bs as = true
  | [], _ => Or.inl rfl
  | _ :: _, [] => Or.inr rfl
  | a :: as, b :: bs => by
    rcases lt_trichotomy a b with h | h | h
    · left; simp [charsLe, h]
    · subst h
      rcases charsLe_total as bs with h2 | h2
      · left; simp [charsLe, h2]
      · right; simp [charsLe, h2]
    · right; simp [charsLe, h]

lemma charsLe_cons (a b : Char) (as bs : List Char) :
    charsLe (a :: as) (b :: bs) =
      (if a < b then true else if b < a then false else charsLe as bs) := rfl

lemma charsLe_trans : ∀ as bs cs : List Char,
    charsLe as bs = true → charsLe bs cs = true → charsLe as cs = true
  | [], _, _ => fun _ _ => rfl
  | _ :: _, [], _ => fun h1 _ => by simp [charsLe] at h1
  | _ :: _, _ :: _, [] => fun _ h2 => by simp [charsLe] at h2
  | a :: as, b :: bs, c :: cs => fun h1 h2 => by
    rw [charsLe_cons] at h1 h2 ⊢
    rcases lt_trichotomy a b with hab | hab | hab
    · rcases lt_trichotomy b c with hbc | hbc | hbc
      · rw [if_pos (lt_trans hab hbc)]
      · subst hbc
        rw [if_pos hab]
      · rw [if_neg (not_lt_of_gt hbc), if_pos hbc] at h2
        exact absurd h2 (by simp)
    · subst hab
      rcases lt_trichotomy a c with hac | hac | hac
      · rw [if_pos hac]
      · subst hac
        rw [if_neg (lt_irrefl a), if_neg (lt_irrefl a)] at h1
        rw [if_neg (lt_irrefl a), if_neg (lt_irrefl a)] at h2
        rw [if_neg (lt_irrefl a), if_neg (lt_irrefl a)]
        exact charsLe_trans as bs cs h1 h2
      · rw [if_neg (not_lt_of_gt hac), if_pos hac] at h2
        exact absurd h2 (by simp)
    · rw [if_neg (not_lt_of_gt hab), if_pos hab] at h1
      exact absurd h1 (by simp)

/-- The ordering proposition used for sorted farm listings. -/
def strLe (s t : String) : Prop := strLeB s t = true

instance : DecidableRel strLe := fun s t => Bool.decEq (strLeB s t) true

instance : IsTotal String strLe := ⟨fun s t => charsLe_total s.toList t.toList⟩

instance : IsTrans String strLe :=
  ⟨fun s t u h1 h2 => charsLe_trans s.toList t.toList u.toList h1 h2⟩

/-- Python's `sorted` on a list of strings (code-point lexicographic). -/
def sortedStrings (l : List String) : List String := List.insertionSort strLe l

/-- `LocalStorage.list_farms` over the result of `os.listdir(base_path)`:
each entry is a name paired with its `os.path.isdir` status; keep directory
entries other than the sentinel `"0"`, then sort. -/
def local_list_farms (entries : List (String × Bool)) : List String :=
  sortedStrings ((entries.filter (fun e => e.2 && e.1 != "0")).map Prod.fst)

/-- Derive one farm id from an S3 `CommonPrefixes` entry:
`farm_path[len(self.prefix):].rstrip('/')`. -/
def s3FarmId (prefixLen : Nat) (p : String) : String :=
  String.mk ((p.toList.drop prefixLen).reverse.dropWhile (fun c => c == '/')).reverse

/-- `S3Storage.list_farms` over the `CommonPrefixes` entries produced by the
prefix-delimited paginator: collect ids that are nonempty and not the
sentinel into a set, return `sorted(list(set))`. -/
def s3_list_farms (prefixLen : Nat) (commonPrefixes : List String) : List String :=
  sortedStrings
    ((commonPrefixes.filterMap (fun p =>
      if s3FarmId prefixLen p ≠ "" ∧ s3FarmId prefixLen p ≠ "0"
      then some (s3FarmId prefixLen p) else none)).dedup)

/-- `LocalStorage.list_farms` including its `try/except`: an enumeration
failure (the `Except.error` case) degrades to the empty list. -/
def local_list_farms_run (r : Except String (List (String × Bool))) : List String :=
  match r with
  | .error _ => []
  | .ok entries => local_list_farms entries

/-- `S3Storage.list_farms` including its `try/except`. -/
def s3_list_farms_run (prefixLen : Nat) (r : Except String (List String)) : List String :=
  match r with
  | .error _ => []
  | .ok cps => s3_list_farms prefixLen cps

/-- **C4.** On a local root whose top-level directories are exactly
`{"0", "alpha", "beta"}`, `list_farms` returns exactly `["alpha", "beta"]`;
and in general, for both the local backend and the S3 backend, the returned
sequence is sorted code-point-lexicographically, free of duplicates, and
contains exactly the farm identifiers with the sentinel `"0"` excluded. -/
theorem list_farms_sorted_unique_no_sentinel
    (entries : List (String × Bool)) (prefixLen : Nat) (cps : List String)
    (hnd : (entries.map Prod.fst).Nodup) :
    local_list_farms [("beta", true), ("0", true), ("alpha", true)] = ["alpha", "beta"] ∧
    (local_list_farms entries).Sorted strLe ∧
    (local_list_farms entries).Nodup ∧
    (∀ x, x ∈ local_list_farms entries ↔ (x, true) ∈ entries ∧ x ≠ "0") ∧
    (s3_list_farms prefixLen cps).Sorted strLe ∧
    (s3_list_farms prefixLen cps).Nodup ∧
    (∀ x, x ∈ s3_list_farms prefixLen cps ↔
      x ≠ "" ∧ x ≠ "0" ∧ ∃ p ∈ cps, s3FarmId prefixLen p = x) := by
  refine ⟨by decide, ?_, ?_, ?_, ?_, ?_, ?_⟩
  · exact List.sorted_insertionSort strLe _
  · refine (List.perm_insertionSort strLe _).nodup_iff.mpr ?_
    exact ((List.filter_sublist entries).map Prod.fst).nodup hnd
  · intro x
    unfold local_list_farms sortedStrings
    rw [(List.perm_insertionSort strLe _).mem_iff]
    constructor
    · intro hx
      obtain ⟨e, he, hex⟩ := List.mem_map.mp hx
      obtain ⟨he1, hcond⟩ := List.mem_filter.mp he
      simp only [Bool.and_eq_true, bne_iff_ne] at hcond
      obtain ⟨h2, h3⟩ := hcond
      subst hex
      refine ⟨?_, h3⟩
      obtain ⟨n, b⟩ := e
      simp only at h2
      subst h2
      exact he1
    · rintro ⟨hmem, hne⟩
      refine List.mem_map.mpr ⟨(x, true), List.mem_filter.mpr ⟨hmem, ?_⟩, rfl⟩
      simp [hne]
  · exact List.sorted_insertionSort strLe _
  · exact (List.perm_insertionSort strLe _).nodup_iff.mpr (List.nodup_dedup _)
  · intro x
    unfold s3_list_farms sortedStrings
    rw [(List.perm_insertionSort strLe _).mem_iff, List.mem_dedup, List.mem_filterMap]
    constructor
    · rintro ⟨p, hp, hfp⟩
      by_cases hc : s3FarmId prefixLen p ≠ "" ∧ s3FarmId prefixLen p ≠ "0"
      · rw [if_pos hc] at hfp
        obtain ⟨h1, h2⟩ := hc
        rw [Option.some.injEq] at hfp
        subst hfp
        exact ⟨h1, h2, p, hp, rfl⟩
      · rw [if_neg hc] at hfp
        exact absurd hfp (by simp)
    · rintro ⟨hne, hn0, p, hp, hfid⟩
      refine ⟨p, hp, ?_⟩
      rw [hfid, if_pos ⟨hne, hn0⟩]

/-- Witness for C4: the concrete local root `{"0", "alpha", "beta"}` and a
concrete prefix-delimited S3 listing. -/
theorem list_farms_sorted_unique_no_sentinel_witness :
    local_list_farms [("beta", true), ("0", true), ("alpha", true)] = ["alpha", "beta"] ∧
    ("alpha" ∈ s3_list_farms 13 ["farm_dataset/beta/", "farm_dataset/0/", "farm_dataset/alpha/"] ↔
      ("alpha" : String) ≠ "" ∧ ("alpha" : String) ≠ "0" ∧
      ∃ p ∈ ["farm_dataset/beta/", "farm_dataset/0/", "farm_dataset/alpha/"],
        s3FarmId 13 p = "alpha") := by
  have h := list_farms_sorted_unique_no_sentinel
    [("beta", true), ("0", true), ("alpha", true)] 13
    ["farm_dataset/beta/", "farm_dataset/0/", "farm_dataset/alpha/"] (by decide)
  exact ⟨h.1, h.2.2.2.2.2.2 "alpha"⟩

/-- **C9.** For both storage backends a failed enumeration of the underlying
filesystem / object store degrades to the empty farm list (and the embedded
functions are total, so nothing is raised to the caller). -/
theorem list_farms_error_empty (e1 : String) (prefixLen : Nat) (e2 : String) :
    local_list_farms_run (Except.error e1) = [] ∧
    s3_list_farms_run prefixLen (Except.error e2) = [] :=
  ⟨rfl, rfl⟩

/-! ## Thumbnail cache (`image_utils.make_thumbnail`) -/

/-- The deterministic cache file name of `make_thumbnail`:
`sha256(source_path.encode()).hexdigest() + "_{width}x{height}.png"`.
The SHA-256 hex digest is a standard-library call, passed in as the
function `sha256hex`. -/
def thumbName (sha256hex : String → String) (sourcePath : String) (w h : Nat) : String :=
  sha256hex sourcePath ++ "_" ++ toString w ++ "x" ++ toString h ++ ".png"

/-- Association-list lookup modelling `os.path.isfile(thumb_path)` together
with reading the cached PNG bytes. -/
def cacheLookup (key : String) : List (String × List Nat) → Option (List Nat)
  | [] => none
  | (k, v) :: rest => if k = key then some v else cacheLookup key rest

/-- `make_thumbnail`: on a cache hit return the cached entry untouched
(no re-validation); on a miss run the rendering/normalization pipeline,
whose invocations are counted by the second component of the result, and
persist its output (`render = none` models a pipeline failure, which leaves
the cache without the entry and returns `None`). -/
def make_thumbnail (sha256hex : String → String) (render : Option (List Nat))
    (cache : List (String × List Nat)) (calls : Nat)
    (sourcePath : String) (w h : Nat) :
    List (String × List Nat) × Nat × Option (List Nat) :=
  match cacheLookup (thumbName sha256hex sourcePath w h) cache with
  | some b => (cache, calls, some b)
  | none =>
    match render with
    | some b => ((thumbName sha256hex sourcePath w h, b) :: cache, calls + 1, some b)
    | none => (cache, calls + 1, none)

/-- **C6.** The cache key is the SHA-256 hex digest of the source path
followed by `_<width>x<height>.png`, and rendering is idempotent per key:
across two consecutive calls with identical `(sourcePath, width, height)`
the rendering pipeline runs at most once, the second call is served from
the cache (state unchanged) and returns bytes identical to the first. -/
theorem thumbnail_cache_idempotent (sha256hex : String → String) (b : List Nat)
    (cache : List (String × List Nat)) (sourcePath : String) (w h : Nat)
    (st1 st2 : List (String × List Nat)) (n1 n2 : Nat)
    (r1 r2 : Option (List Nat))
    (h1 : make_thumbnail sha256hex (some b) cache 0 sourcePath w h = (st1, n1, r1))
    (h2 : make_thumbnail sha256hex (some b) st1 n1 sourcePath w h = (st2, n2, r2)) :
    thumbName sha256hex sourcePath w h =
      sha256hex sourcePath ++ "_" ++ toString w ++ "x" ++ toString h ++ ".png" ∧
    n2 ≤ 1 ∧ r2 = r1 ∧ st2 = st1 := by
  unfold make_thumbnail at h1 h2
  cases hl : cacheLookup (thumbName sha256hex sourcePath w h) cache with
  | some v =>
    rw [hl] at h1
    simp only [Prod.mk.injEq] at h1
    obtain ⟨hst1, hn1, hr1⟩ := h1
    subst hst1; subst hn1; subst hr1
    rw [hl] at h2
    simp only [Prod.mk.injEq] at h2
    obtain ⟨hst2, hn2, hr2⟩ := h2
    subst hst2; subst hn2; subst hr2
    exact ⟨rfl, by omega, rfl, rfl⟩
  | none =>
    rw [hl] at h1
    simp only [Prod.mk.injEq] at h1
    obtain ⟨hst1, hn1, hr1⟩ := h1
    subst hst1; subst hn1; subst hr1
    have hhit : cacheLookup (thumbName sha256hex sourcePath w h)
        ((thumbName sha256hex sourcePath w h, b) :: cache) = some b := by
      unfold cacheLookup
      rw [if_pos rfl]
    rw [hhit] at h2
    simp only [Prod.mk.injEq] at h2
    obtain ⟨hst2, hn2, hr2⟩ := h2
    subst hst2; subst hn2; subst hr2
    exact ⟨rfl, by omega, rfl, rfl⟩

/-- Witness for C6 at a concrete source path, size and cache state. -/
theorem thumbnail_cache_idempotent_witness :
    thumbName id "a.tif" 300 300 = id "a.tif" ++ "_" ++ toString 300 ++ "x" ++
      toString 300 ++ ".png" ∧
    (1 : Nat) ≤ 1 ∧ (some [7, 7] : Option (List Nat)) = some [7, 7] ∧
    ([(thumbName id "a.tif" 300 300, [7, 7])] :
      List (String × List Nat)) = [(thumbName id "a.tif" 300 300, [7, 7])] :=
  thumbnail_cache_idempotent id [7, 7] [] "a.tif" 300 300
    [(thumbName id "a.tif" 300 300, [7, 7])] [(thumbName id "a.tif" 300 300, [7, 7])]
    1 1 (some [7, 7]) (some [7, 7]) rfl rfl

/-! ## RGB band selection of the two rendering paths -/

/-- Band selection of the on-disk thumbnail path (`make_thumbnail`'s
rasterio branch): for ≥ 4 bands stack the bands at 0-based indices
`(2, 1, 0)` as `(R, G, B)`; for exactly 3 bands use `(0, 1, 2)` directly.
(1 band is grayscale and 2 bands raise, both outside this selection.)
Pixel data is modelled over `ℚ`; each band is its flattened pixel list. -/
def make_thumbnail_rgb_select (bands : List (List ℚ)) : Option (List (List ℚ)) :=
  if 3 ≤ bands.length then
    if 4 ≤ bands.length then some [bands.getD 2 [], bands.getD 1 [], bands.getD 0 []]
    else some [bands.getD 0 [], bands.getD 1 [], bands.getD 2 []]
  else none

/-- Band selection of the composite multi-band display path
(`ImageProcessor.generate_thumbnail_base64`): it requires ≥ 4 bands and
stacks the bands at 0-based indices `(3, 2, 1)` as `(R, G, B)`; with fewer
than 4 bands it returns `None`. -/
def composite_rgb_select (bands : List (List ℚ)) : Option (List (List ℚ)) :=
  if 4 ≤ bands.length then some [bands.getD 3 [], bands.getD 2 [], bands.getD 1 []]
  else none

/-- **C8 counterexample.** On a concrete 4-band raster the composite display
path does not pick bands `(2, 1, 0)` — it picks `(3, 2, 1)` — and on a
3-band raster it does not use `(0, 1, 2)`: it renders nothing at all. -/
theorem composite_band_mapping_differs :
    composite_rgb_select [[0], [1], [2], [3]] ≠ some [[2], [1], [0]] ∧
    composite_rgb_select [[0], [1], [2]] ≠ some [[0], [1], [2]] :=
  ⟨by decide, by decide⟩

/-- **C8 amended.** The on-disk thumbnail path uses bands `(2, 1, 0)` for
≥ 4 bands and `(0, 1, 2)` for exactly 3 bands; the composite display path
instead uses bands `(3, 2, 1)` for ≥ 4 bands and fails (no thumbnail) for
exactly 3 bands. -/
theorem rgb_band_mapping (bands : List (List ℚ)) (h4 : 4 ≤ bands.length) :
    make_thumbnail_rgb_select bands =
      some [bands.getD 2 [], bands.getD 1 [], bands.getD 0 []] ∧
    composite_rgb_select bands =
      some [bands.getD 3 [], bands.getD 2 [], bands.getD 1 []] ∧
    (∀ b3 : List (List ℚ), b3.length = 3 →
      make_thumbnail_rgb_select b3 =
        some [b3.getD 0 [], b3.getD 1 [], b3.getD 2 []] ∧
      composite_rgb_select b3 = none) := by
  refine ⟨?_, ?_, ?_⟩
  · unfold make_thumbnail_rgb_select
    rw [if_pos (le_trans (by norm_num) h4), if_pos h4]
  · unfold composite_rgb_select
    rw [if_pos h4]
  · intro b3 h3
    unfold make_thumbnail_rgb_select composite_rgb_select
    rw [h3]
    simp

/-- Witness for C8 (amended) on a concrete 4-band raster. -/
theorem rgb_band_mapping_witness :
    make_thumbnail_rgb_select [[0], [1], [2], [3]] = some [[2], [1], [0]] ∧
    composite_rgb_select [[0], [1], [2], [3]] = some [[3], [2], [1]] := by
  have h := rgb_band_mapping [[0], [1], [2], [3]] (by decide)
  exact ⟨h.1.trans (by decide), h.2.1.trans (by decide)⟩

/-! ## Percentile contrast stretch (`aggressive_stretch`)

The float64 pixel arithmetic of the Python code is modelled exactly over
`ℚ`; a channel is its flattened pixel list (the stretch is pointwise, so
the spatial layout is irrelevant). -/

/-- Ascending sort of pixel values (`np.percentile` sorts internally). -/
def sortQ (l : List ℚ) : List ℚ := sortBy (fun a b => decide (a < b)) l

/-- `np.percentile(a, q)` with the default linear interpolation:
`pos = q/100 * (n-1)`, interpolating between the two nearest order
statistics.  (numpy raises on an empty array; the `0` branch is unreached
under the nonempty hypotheses used below.) -/
def percentile (q : ℚ) (l : List ℚ) : ℚ :=
  let s := sortQ l
  if s.length = 0 then 0
  else
    let pos : ℚ := q / 100 * ((s.length : ℚ) - 1)
    let i : ℤ := ⌊pos⌋
    let lo := s.getD i.toNat 0
    let hi := s.getD (i.toNat + 1) lo
    lo + (pos - (i : ℚ)) * (hi - lo)

/-- `band[band > 0]`: the strictly positive pixel values of a channel. -/
def posVals (band : List ℚ) : List ℚ := band.filter (fun v => decide (0 < v))

/-- The sample the percentiles are taken over: the positive values when any
exist, else the whole channel. -/
def pctBase (band : List ℚ) : List ℚ :=
  if posVals band = [] then band else posVals band

/-- `(p_low, p_high)`: the 0.5th and 99.5th percentiles of the base. -/
def stretchParams (band : List ℚ) : ℚ × ℚ :=
  (percentile (1 / 2) (pctBase band), percentile (199 / 2) (pctBase band))

/-- `np.max(band)`. -/
def maxQ : List ℚ → ℚ
  | [] => 0
  | x :: xs => xs.foldl max x

/-- The per-pixel value assigned into `result` before the final clip:
linear stretch when `p_high > p_low`, else division by the channel maximum
(or the raw value when the maximum is not positive). -/
def stretchPre (band : List ℚ) (v : ℚ) : ℚ :=
  if (stretchParams band).1 < (stretchParams band).2 then
    (v - (stretchParams band).1) / ((stretchParams band).2 - (stretchParams band).1)
  else if 0 < maxQ band then v / maxQ band
  else v

/-- `np.clip(result * 255, 0, 255).astype(np.uint8)`: clamp, then the uint8
cast truncates toward zero, which on the clamped nonnegative value is the
floor. -/
def toByte (r : ℚ) : ℕ := (⌊max 0 (min 255 (r * 255))⌋).toNat

/-- One output channel of `aggressive_stretch`. -/
def stretchChannel (band : List ℚ) : List ℕ :=
  band.map (fun v => toByte (stretchPre band v))

/-- `aggressive_stretch` on the 3-channel composite: the same per-channel
stretch applied to each of the three channels independently. -/
def aggressive_stretch (r g b : List ℚ) : List (List ℕ) :=
  [stretchChannel r, stretchChannel g, stretchChannel b]

lemma toByte_mono {x y : ℚ} (h : x ≤ y) : toByte x ≤ toByte y := by
  unfold toByte
  have hm : max 0 (min 255 (x * 255)) ≤ max 0 (min 255 (y * 255)) :=
    max_le_max (le_refl 0)
      (min_le_min (le_refl 255) (mul_le_mul_of_nonneg_right h (by norm_num)))
  exact Int.toNat_le_toNat (Int.floor_mono hm)

lemma toByte_of_nonpos {r : ℚ} (h : r ≤ 0) : toByte r = 0 := by
  unfold toByte
  have h1 : r * 255 ≤ 0 := mul_nonpos_of_nonpos_of_nonneg h (by norm_num)
  rw [min_eq_right (le_trans h1 (by norm_num)), max_eq_left h1]
  norm_num

lemma toByte_of_one_le {r : ℚ} (h : 1 ≤ r) : toByte r = 255 := by
  unfold toByte
  have h1 : (255 : ℚ) ≤ r * 255 := by nlinarith
  rw [min_eq_left h1, max_eq_right (by norm_num : (0 : ℚ) ≤ 255)]
  have h2 : ⌊(255 : ℚ)⌋ = 255 := by norm_num
  rw [h2]
  rfl

lemma toByte_of_unit {r : ℚ} (h0 : 0 ≤ r) (h1 : r ≤ 1) :
    toByte r = (⌊r * 255⌋).toNat ∧ toByte r ≤ 255 := by
  unfold toByte
  have ha : 0 ≤ r * 255 := by positivity
  have hb : r * 255 ≤ 255 := by nlinarith
  rw [min_eq_right hb, max_eq_right ha]
  refine ⟨rfl, ?_⟩
  have hf : ⌊r * 255⌋ ≤ ⌊(255 : ℚ)⌋ := Int.floor_mono hb
  have h255 : ⌊(255 : ℚ)⌋ = 255 := by norm_num
  rw [h255] at hf
  exact Int.toNat_le_toNat hf

lemma foldl_max_le_init : ∀ (xs : List ℚ) (a : ℚ), a ≤ xs.foldl max a
  | [], a => le_refl a
  | x :: xs, a => le_trans (le_max_left a x) (foldl_max_le_init xs (max a x))

lemma mem_le_foldl_max : ∀ (xs : List ℚ) (a : ℚ) {v : ℚ}, v ∈ xs → v ≤ xs.foldl max a
  | x :: xs, a, v, h => by
    rcases List.mem_cons.mp h with h | h
    · subst h
      exact le_trans (le_max_right a v) (foldl_max_le_init xs (max a v))
    · exact mem_le_foldl_max xs (max a x) h

lemma le_maxQ {l : List ℚ} {v : ℚ} (h : v ∈ l) : v ≤ maxQ l := by
  cases l with
  | nil => exact absurd h (by simp)
  | cons x xs =>
    rcases List.mem_cons.mp h with h | h
    · subst h
      exact foldl_max_le_init xs v
    · exact mem_le_foldl_max xs x h

lemma stretchPre_of_lt {band : List ℚ} {pl ph : ℚ}
    (hp : stretchParams band = (pl, ph)) (hlt : pl < ph) (v : ℚ) :
    stretchPre band v = (v - pl) / (ph - pl) := by
  unfold stretchPre
  rw [hp]
  exact if_pos hlt

lemma stretchPre_of_ge {band : List ℚ} {pl ph : ℚ}
    (hp : stretchParams band = (pl, ph)) (hge : ph ≤ pl) (v : ℚ) :
    stretchPre band v = if 0 < maxQ band then v / maxQ band else v := by
  unfold stretchPre
  rw [hp]
  exact if_neg (not_lt.mpr hge)

/-- **C7.** Per-channel percentile stretch: each of the three channels is
processed independently; `p_low`/`p_high` are the 0.5th and 99.5th
percentiles over the strictly positive pixels of the channel (over all
pixels when none are positive); when `p_high > p_low` the byte output is a
monotonically non-decreasing function of input intensity, values below
`p_low` map to exactly 0, values above `p_high` map to exactly 255, and
values in `[p_low, p_high]` map linearly onto `[0, 255]` (truncated to the
byte grid and never exceeding 255); when `p_high ≤ p_low` the pre-clip
value is the pixel divided by the channel maximum when that maximum is
positive, and a channel whose maximum is zero comes out all-zero. -/
theorem percentile_stretch_behavior (r g b band : List ℚ)
    (hband : band = r ∨ band = g ∨ band = b)
    (pl ph : ℚ) (hp : stretchParams band = (pl, ph)) :
    stretchChannel band ∈ aggressive_stretch r g b ∧
    (posVals band ≠ [] → stretchParams band =
      (percentile (1 / 2) (posVals band), percentile (199 / 2) (posVals band))) ∧
    (posVals band = [] → stretchParams band =
      (percentile (1 / 2) band, percentile (199 / 2) band)) ∧
    (pl < ph →
      (∀ v w : ℚ, v ≤ w → toByte (stretchPre band v) ≤ toByte (stretchPre band w)) ∧
      (∀ v : ℚ, v < pl → toByte (stretchPre band v) = 0) ∧
      (∀ v : ℚ, ph < v → toByte (stretchPre band v) = 255) ∧
      (∀ v : ℚ, pl ≤ v → v ≤ ph →
        toByte (stretchPre band v) = (⌊(v - pl) / (ph - pl) * 255⌋).toNat ∧
        toByte (stretchPre band v) ≤ 255)) ∧
    (ph ≤ pl →
      (0 < maxQ band → ∀ v : ℚ, stretchPre band v = v / maxQ band) ∧
      (maxQ band = 0 → ∀ v ∈ band, toByte (stretchPre band v) = 0)) := by
  refine ⟨?_, ?_, ?_, ?_, ?_⟩
  · rcases hband with h | h | h <;> (subst h; simp [aggressive_stretch])
  · intro h
    unfold stretchParams pctBase
    rw [if_neg h]
  · intro h
    unfold stretchParams pctBase
    rw [if_pos h]
  · intro hlt
    have hd : (0 : ℚ) < ph - pl := by linarith
    refine ⟨?_, ?_, ?_, ?_⟩
    · intro v w hvw
      rw [stretchPre_of_lt hp hlt v, stretchPre_of_lt hp hlt w]
      exact toByte_mono ((div_le_div_iff_of_pos_right hd).mpr (by linarith))
    · intro v hv
      rw [stretchPre_of_lt hp hlt v]
      exact toByte_of_nonpos (le_of_lt (div_neg_of_neg_of_pos (by linarith) hd))
    · intro v hv
      rw [stretchPre_of_lt hp hlt v]
      exact toByte_of_one_le (le_of_lt ((one_lt_div hd).mpr (by linarith)))
    · intro v hv1 hv2
      rw [stretchPre_of_lt hp hlt v]
      exact toByte_of_unit (div_nonneg (by linarith) (le_of_lt hd))
        ((div_le_one hd).mpr (by linarith))
  · intro hge
    refine ⟨?_, ?_⟩
    · intro hmax v
      rw [stretchPre_of_ge hp hge v, if_pos hmax]
    · intro hmax v hv
      have hv0 : v ≤ 0 := hmax ▸ le_maxQ hv
      rw [stretchPre_of_ge hp hge v, if_neg (by rw [hmax]; exact lt_irrefl 0)]
      exact toByte_of_nonpos hv0

/-- Witness for C7 on the concrete channel `[1, 2]` (used for all three
channels), whose percentiles are `p_low = 201/200 < p_high = 399/200`. -/
theorem percentile_stretch_behavior_witness :
    toByte (stretchPre [1, 2] 0) ≤ toByte (stretchPre [1, 2] 1) ∧
    toByte (stretchPre [1, 2] 0) = 0 ∧
    toByte (stretchPre [1, 2] 3) = 255 := by
  have h := percentile_stretch_behavior [1, 2] [1, 2] [1, 2] [1, 2] (Or.inl rfl)
    (201 / 200) (399 / 200)
    (by norm_num [stretchParams, pctBase, posVals, percentile, sortQ, sortBy, insertSorted])
  have hlt : (201 / 200 : ℚ) < 399 / 200 := by norm_num
  exact ⟨(h.2.2.2.1 hlt).1 0 1 (by norm_num),
    (h.2.2.2.1 hlt).2.1 0 (by norm_num),
    (h.2.2.2.1 hlt).2.2.1 3 (by norm_num)⟩

end FarmTool
